import Mathlib

/-!
# Verification of `vdna_gauss.py` (Gaussian VDNA distributions)

Shallow embedding of `src/vdna/vdnas/vdna_gauss.py`: fitting per-neuron
Gaussian statistics (mean / Bessel-corrected variance) from feature batches,
persisting them, merging two fitted distributions with the parallel
(Chan) combination formulas, and querying the results.

Modelling conventions:
* torch tensors of rational values are modelled over `ℚ` (exact arithmetic);
  a feature batch (`tensor[sample, ...]`) is a `List Sample` where a
  `Sample = List (List ℚ)` models the non-sample dimensions, and
  `features.view(features.shape[0], -1)` is `List.flatten` per sample;
* `torch.mean(·, dim=0)` / `torch.var(·, dim=0, correction=1)` are the
  per-column arithmetic mean resp. the sum of squared deviations divided by
  `n - 1` (their mathematical definitions), computed column-wise;
* Python `dict`s are association lists in insertion order (Python 3.7+
  dicts preserve insertion order); `d[k] = v` on a dict is `dictSet`
  (replace-in-place or append);
* raised exceptions are `Except` errors; the `print` warning in
  `_get_gaussian_params` is modelled as a returned `Bool` flag;
* `.cpu()`, `.numpy()`, `torch.from_numpy`, `.to(device)` are value-preserving
  and are modelled as the identity; `astype(np.float32)` is modelled as an
  arbitrary per-entry cast function `f : ℚ → ℚ` passed to `_save_dist_data`.
-/

/-- A sample of a feature batch: the (up to two) non-sample dimensions of the
tensor, flattened by `List.flatten` (modelling `features.view(shape[0], -1)`).
A plain 2-D batch corresponds to singleton inner lists. -/
abbrev Sample : Type := List (List ℚ)

/-- A feature batch for one layer: `tensor[sample_count, ...]`. -/
abbrev Batch : Type := List Sample

/-- Errors of the embedded code.  `shapeError` models the `RuntimeError`
raised by `features.view(0, -1)` on an empty batch, `schemaMismatchError`
the merge-precondition failure, `missingLayerError` the `KeyError` raised by
an `npz` archive lookup, and `pickleLoadError` the `ValueError` raised by
`np.load(...)[key]` when `key` holds a pickled object and `allow_pickle`
is false (its default). -/
inductive VDNAError where
  | shapeError
  | schemaMismatchError
  | missingLayerError
  | pickleLoadError
  deriving DecidableEq, Repr

/-- Per-layer fitted statistics: the dict `{"mu": ..., "var": ...}`. -/
structure LayerStats where
  mu : List ℚ
  var : List ℚ
  deriving DecidableEq, Repr

/-- Arithmetic mean of a list (`torch.mean` along one column). -/
def vmean (xs : List ℚ) : ℚ := xs.sum / xs.length

/-- Unbiased sample variance of a list (`torch.var` with `correction=1`
along one column): sum of squared deviations from the mean, divided by
`n - 1`. -/
def vvar (xs : List ℚ) : ℚ :=
  (xs.map (fun x => (x - vmean xs) ^ 2)).sum / ((xs.length : ℚ) - 1)

/-- Column `j` of a list of rows (reading entry `j` of every row). -/
def col (rows : List (List ℚ)) (j : ℕ) : List ℚ :=
  rows.map (fun r => r.getD j 0)

/-- Number of columns of a (rectangular) list of rows. -/
def ncols (rows : List (List ℚ)) : ℕ := (rows.headD []).length

/-- Embedding of `_get_gaussian_params` (vdna_gauss.py lines 11-19):
flattens each sample (`features.view(features.shape[0], -1)`), computes the
per-column mean `mu`, and the Bessel-corrected per-column variance when the
batch has more than one sample; with exactly one sample `var` is
`torch.zeros_like(mu)` and a warning is printed (returned `Bool`).
`features.view(0, -1)` raises on an empty batch (`.error .shapeError`). -/
def _get_gaussian_params (features : Batch) : Except VDNAError (LayerStats × Bool) :=
  if features.length = 0 then
    .error .shapeError
  else
    let rows := features.map List.flatten
    let mu := (List.range (ncols rows)).map (fun j => vmean (col rows j))
    if features.length > 1 then
      .ok (⟨mu, (List.range (ncols rows)).map (fun j => vvar (col rows j))⟩, false)
    else
      .ok (⟨mu, List.replicate mu.length 0⟩, true)

/-- First value stored under key `l` in an association list (Python dict
lookup `d[l]`, insertion-ordered with unique keys). -/
def alist.find {β : Type} (d : List (String × β)) (l : String) : Option β :=
  match d with
  | [] => none
  | (k, v) :: rest => if k = l then some v else alist.find rest l

/-- The `VDNAGauss` object state: `self.data` (a dict from layer name to
`{"mu", "var"}`, insertion-ordered) and `self.num_images` (the sample count
held by the `VDNA` base class). -/
structure VDNAGauss where
  data : List (String × LayerStats)
  num_images : ℕ
  deriving DecidableEq, Repr

/-- Python dict assignment `d[k] = v`: replace the value of an existing key
in place, else append the new key. -/
def dictSet {β : Type} (d : List (String × β)) (k : String) (v : β) :
    List (String × β) :=
  match d with
  | [] => [(k, v)]
  | (k', v') :: rest =>
    if k' = k then (k', v) :: rest else (k', v') :: dictSet rest k v

/-- The loop body of `VDNAGauss.fit_distribution` (lines 33-36): fit each
layer of `features_dict` in insertion order; the first raising layer aborts
the whole fit. -/
def fitData : List (String × Batch) → Except VDNAError (List (String × LayerStats))
  | [] => .ok []
  | (l, b) :: rest =>
    match _get_gaussian_params b with
    | .error e => .error e
    | .ok p =>
      match fitData rest with
      | .error e => .error e
      | .ok d => .ok ((l, p.1) :: d)

/-- Embedding of the success path of `VDNAGauss.fit_distribution`: replaces
`self.data` with the statistics fitted from `features_dict`.  The `Except`
error path discards the partial per-layer mutation the Python loop performs
before a raising layer; `VDNAGauss.fit_distribution_mut` below keeps it. -/
def VDNAGauss.fit_distribution (d : VDNAGauss) (features_dict : List (String × Batch)) :
    Except VDNAError VDNAGauss :=
  (fitData features_dict).map (fun dat => { d with data := dat })

/-- The loop of `fit_distribution` with the mutation of `self.data` kept
explicit: each layer's statistics are stored (`self.data[layer] = ...`)
before the next layer is attempted, so a raising layer leaves the earlier
layers' statistics in place.  Returns the final `self.data` together with
the raised error, if any. -/
def fitDataPartial (acc : List (String × LayerStats)) :
    List (String × Batch) → List (String × LayerStats) × Option VDNAError
  | [] => (acc, none)
  | (l, b) :: rest =>
    match _get_gaussian_params b with
    | .error e => (acc, some e)
    | .ok p => fitDataPartial (dictSet acc l p.1) rest

/-- Embedding of `VDNAGauss.fit_distribution` with its side effect on the
object state: `self.data = {}`, then the per-layer loop; the second
component is the exception propagated to the caller, if any.  On a raise
the returned object keeps the statistics of the layers fitted before the
raising one, exactly as the Python object does. -/
def VDNAGauss.fit_distribution_mut (d : VDNAGauss)
    (features_dict : List (String × Batch)) : VDNAGauss × Option VDNAError :=
  ({ d with data := (fitDataPartial [] features_dict).1 },
   (fitDataPartial [] features_dict).2)

/-- The elementwise combined mean of `VDNAGauss.__add__` (lines 84-86):
`(mu_a * n_a + mu_b * n_b) / (n_a + n_b)`. -/
def mergeMu (nA nB : ℕ) (muA muB : ℚ) : ℚ :=
  (muA * nA + muB * nB) / ((nA : ℚ) + nB)

/-- The elementwise combined variance of `VDNAGauss.__add__` (lines 88-93):
`(var_a*(n_a-1) + n_a*(mu_a - mu_c)^2 + var_b*(n_b-1) + n_b*(mu_b - mu_c)^2)
/ (n_a + n_b - 1)` where `mu_c` is the already-computed combined mean.
Python subtraction on `int` is modelled by subtraction in `ℚ` after the
cast (`num_images - 1` may be negative). -/
def mergeVar (nA nB : ℕ) (muA varA muB varB : ℚ) : ℚ :=
  (varA * ((nA : ℚ) - 1) + nA * (muA - mergeMu nA nB muA muB) ^ 2
    + varB * ((nB : ℚ) - 1) + nB * (muB - mergeMu nA nB muA muB) ^ 2)
  / ((nA : ℚ) + nB - 1)

/-- One layer of the `__add__` loop: the elementwise tensor arithmetic on the
two layers' `mu`/`var` vectors. -/
def mergeStats (nA nB : ℕ) (sa sb : LayerStats) : LayerStats where
  mu := List.zipWith (mergeMu nA nB) sa.mu sb.mu
  var := List.zipWith (fun p q => mergeVar nA nB p.1 p.2 q.1 q.2)
    (sa.mu.zip sa.var) (sb.mu.zip sb.var)

/-- Modelled from the spec: `_common_before_add` is defined in `vdna_base.py`,
which is not among the sources; per the spec it checks that the two operands
"have the identical set of layer names and, per layer, identical neuron
counts" (the neuron count of a layer being the length of its `mu` vector),
failing with `SchemaMismatchError` otherwise. -/
def sameSchema (a b : VDNAGauss) : Bool :=
  (a.data.all fun p =>
    match alist.find b.data p.1 with
    | some sb => p.2.mu.length == sb.mu.length
    | none => false)
  && (b.data.all fun p => (alist.find a.data p.1).isSome)

/-- The layer loop of `VDNAGauss.__add__` (lines 82-93): iterate over
`self.data` in insertion order, look each layer up in `other.data`
(a missing key would raise `KeyError`, impossible once the schema check
passed), and combine the statistics elementwise. -/
def mergeData (nA nB : ℕ) :
    List (String × LayerStats) → List (String × LayerStats) →
    Except VDNAError (List (String × LayerStats))
  | [], _ => .ok []
  | (l, sa) :: rest, bdata =>
    match alist.find bdata l with
    | none => .error .missingLayerError
    | some sb =>
      match mergeData nA nB rest bdata with
      | .error e => .error e
      | .ok d => .ok ((l, mergeStats nA nB sa sb) :: d)

/-- Embedding of `VDNAGauss.__add__` (lines 78-94), i.e. `merge(a, b)`:
runs the (spec-modelled) `_common_before_add` schema check, which also sets
the result's `num_images` to `n_a + n_b` (spec: "Result `sample_count =
n_a + n_b`"), then combines every layer with the Chan formulas. -/
def VDNAGauss.add (a b : VDNAGauss) : Except VDNAError VDNAGauss :=
  if sameSchema a b then
    match mergeData a.num_images b.num_images a.data b.data with
    | .error e => .error e
    | .ok d => .ok ⟨d, a.num_images + b.num_images⟩
  else
    .error .schemaMismatchError

/-- A value stored in an `npz` archive: either a numeric array, or the
pickled empty dict `{}` that `_save_dist_data` line 45 (`data[layer] = {}`)
stores under the plain layer name. -/
inductive ArchiveVal where
  | arr (xs : List ℚ)
  | obj
  deriving DecidableEq, Repr

/-- Embedding of `VDNAGauss._save_dist_data` (lines 41-48): build the dict
passed to `np.savez_compressed` by iterating over `self.data` in insertion
order, storing `data[layer] = {}` (an empty dict, later pickled), then
`data["mu-" + layer]` and `data["var-" + layer]` as float32 arrays;
`f` models the `astype(np.float32)` per-entry cast.  Returns the archive
content (path handling is I/O detail outside the embedding). -/
def saveGo (f : ℚ → ℚ) : List (String × LayerStats) → List (String × ArchiveVal) →
    List (String × ArchiveVal)
  | [], acc => acc
  | (l, st) :: rest, acc =>
    saveGo f rest (dictSet (dictSet (dictSet acc l .obj)
      ("mu-" ++ l) (.arr (st.mu.map f)))
      ("var-" ++ l) (.arr (st.var.map f)))

def _save_dist_data (f : ℚ → ℚ) (dist : List (String × LayerStats)) :
    List (String × ArchiveVal) :=
  saveGo f dist []

/-- `np.load(...)[key]`: `KeyError` when the key is absent; `ValueError`
("Object arrays cannot be loaded when allow_pickle=False") when the key
holds a pickled object, since `np.load`'s `allow_pickle` defaults to false. -/
def npzGet (archive : List (String × ArchiveVal)) (k : String) :
    Except VDNAError (List ℚ) :=
  match alist.find archive k with
  | none => .error .missingLayerError
  | some .obj => .error .pickleLoadError
  | some (.arr xs) => .ok xs

/-- Embedding of `VDNAGauss._load_dist_data` (lines 50-57): for each layer of
`self.neurons_list` (the expected layer names, from companion metadata), read
the `"mu-" + layer` and `"var-" + layer` arrays back from the archive. -/
def _load_dist_data (archive : List (String × ArchiveVal)) :
    List String → Except VDNAError (List (String × LayerStats))
  | [] => .ok []
  | l :: rest =>
    match npzGet archive ("mu-" ++ l) with
    | .error e => .error e
    | .ok mu =>
      match npzGet archive ("var-" ++ l) with
      | .error e => .error e
      | .ok var =>
        match _load_dist_data archive rest with
        | .error e => .error e
        | .ok d => .ok ((l, ⟨mu, var⟩) :: d)

/-- Python/torch indexing `t[i]` on a 1-D tensor of length `n`: a negative
index `i` addresses entry `n + i`; an index outside `[-n, n)` raises
`IndexError` (`none`). -/
def tensorIndex (xs : List ℚ) (i : ℤ) : Option ℚ :=
  if i < 0 then
    if 0 ≤ (xs.length : ℤ) + i then xs[((xs.length : ℤ) + i).toNat]? else none
  else
    xs[i.toNat]?

/-- Embedding of `VDNAGauss.get_neuron_dist` (lines 59-63): look the layer up
in `self.data` (`KeyError` on an unknown layer) and index both `mu` and
`var` at `neuron_idx`. -/
def VDNAGauss.get_neuron_dist (d : VDNAGauss) (layer_name : String)
    (neuron_idx : ℤ) : Option (ℚ × ℚ) :=
  match alist.find d.data layer_name with
  | none => none
  | some st =>
    match tensorIndex st.mu neuron_idx, tensorIndex st.var neuron_idx with
    | some m, some v => some (m, v)
    | _, _ => none

/-- Embedding of `VDNAGauss.get_all_neurons_dists` (lines 70-76): collect the
per-layer `mu` (resp. `var`) vectors in insertion order of `self.data` and
concatenate them (`torch.cat`). -/
def VDNAGauss.get_all_neurons_dists (d : VDNAGauss) : List ℚ × List ℚ :=
  ((d.data.map (fun p => p.2.mu)).flatten,
   (d.data.map (fun p => p.2.var)).flatten)

/-! ## Derived definitions used in statements and witnesses -/

/-- The value `_get_gaussian_params` returns in its `len(features) > 1`
branch, as a standalone `LayerStats` (used to state its behaviour). -/
def fitStats (P : Batch) : LayerStats where
  mu := (List.range (ncols (P.map List.flatten))).map
    (fun j => vmean (col (P.map List.flatten) j))
  var := (List.range (ncols (P.map List.flatten))).map
    (fun j => vvar (col (P.map List.flatten) j))

def mTot (n : Nat) (mu : Rat) : Rat := mu * n

def m2Tot (n : Nat) (mu var : Rat) : Rat := var * ((n : Rat) - 1) + n * mu ^ 2

/-- The spec's merge precondition, stated declaratively in the claim's own
words (for comparison with the behaviour of `VDNAGauss.add`): identical sets
of layer names, and identical neuron counts on every shared layer. -/
def schemaSpec (a b : VDNAGauss) : Prop :=
  (∀ l, l ∈ a.data.map Prod.fst ↔ l ∈ b.data.map Prod.fst)
    ∧ ∀ l sa sb, alist.find a.data l = some sa → alist.find b.data l = some sb →
        sa.mu.length = sb.mu.length

/-- A concrete two-sample one-neuron batch used by witnesses. -/
def PW : Batch := [[[0]], [[0]]]

/-- A concrete one-layer feature dict used by witnesses. -/
def FW : List (String × Batch) := [("L", PW)]

/-- A concrete single sample used by witnesses. -/
def sW : Sample := [[2], [3]]

/-- Concrete one-neuron statistics used by witnesses. -/
def stW : LayerStats := ⟨[0], [0]⟩

/-- A concrete one-layer distribution with one image. -/
def aW : VDNAGauss := ⟨[("L", stW)], 1⟩

/-- The same distribution with zero images (degenerate merge operand). -/
def bW : VDNAGauss := ⟨[("L", stW)], 0⟩

/-- `aW` merged with itself. -/
def abW : VDNAGauss := ⟨[("L", stW)], 2⟩

/-- A three-way merge of `aW`. -/
def abcW : VDNAGauss := ⟨[("L", stW)], 3⟩

/-- The fitted distribution on `FW`. -/
def vW : VDNAGauss := ⟨[("L", fitStats PW)], 0⟩

/-- A concrete archive used by the C9 witness. -/
def archW : List (String × ArchiveVal) := [("mu-L", .arr [0]), ("var-L", .arr [0])]

/-- A concrete two-neuron distribution used by the C10 witness. -/
def dW : VDNAGauss := ⟨[("L", ⟨[1, 2], [3, 4]⟩)], 2⟩

/-! ## Scalar facts about mean, variance and the combination formulas -/

theorem sum_sq_expand (xs : List ℚ) (c : ℚ) :
    (xs.map (fun x => (x - c) ^ 2)).sum
      = (xs.map (fun x => x ^ 2)).sum - 2 * c * xs.sum + xs.length * c ^ 2 := by
  induction xs with
  | nil => simp
  | cons x xs ih =>
    simp only [List.map_cons, List.sum_cons, ih, List.length_cons]
    push_cast
    ring

theorem vvar_eq_sum_sq (xs : List ℚ) (h : xs ≠ []) :
    vvar xs
      = ((xs.map (fun x => x ^ 2)).sum - xs.sum ^ 2 / xs.length)
        / ((xs.length : ℚ) - 1) := by
  have hn : (xs.length : ℚ) ≠ 0 := by
    have : xs.length ≠ 0 := fun hh => h (List.length_eq_zero.mp hh)
    exact_mod_cast this
  rw [vvar, sum_sq_expand, vmean]
  congr 1
  field_simp
  ring

theorem mergeMu_pooled (xs ys : List ℚ) (hx : xs ≠ []) (hy : ys ≠ []) :
    mergeMu xs.length ys.length (vmean xs) (vmean ys) = vmean (xs ++ ys) := by
  have hx' : (xs.length : ℚ) ≠ 0 := by
    have : xs.length ≠ 0 := fun hh => hx (List.length_eq_zero.mp hh)
    exact_mod_cast this
  have hy' : (ys.length : ℚ) ≠ 0 := by
    have : ys.length ≠ 0 := fun hh => hy (List.length_eq_zero.mp hh)
    exact_mod_cast this
  have hxy : (xs.length : ℚ) + ys.length ≠ 0 := by positivity
  simp only [mergeMu, vmean, List.sum_append, List.length_append]
  push_cast
  field_simp

theorem mergeVar_pooled (xs ys : List ℚ) (hx : 2 ≤ xs.length) (hy : 2 ≤ ys.length) :
    mergeVar xs.length ys.length (vmean xs) (vvar xs) (vmean ys) (vvar ys)
      = vvar (xs ++ ys) := by
  have hx0 : xs ≠ [] := by intro h; rw [h] at hx; simp at hx
  have hy0 : ys ≠ [] := by intro h; rw [h] at hy; simp at hy
  have hx2 : (2 : ℚ) ≤ (xs.length : ℚ) := by exact_mod_cast hx
  have hy2 : (2 : ℚ) ≤ (ys.length : ℚ) := by exact_mod_cast hy
  have hx' : (xs.length : ℚ) ≠ 0 := by linarith
  have hy' : (ys.length : ℚ) ≠ 0 := by linarith
  have hx1 : (xs.length : ℚ) - 1 ≠ 0 := by intro h; nlinarith
  have hy1 : (ys.length : ℚ) - 1 ≠ 0 := by intro h; nlinarith
  have hxy : (xs.length : ℚ) + ys.length ≠ 0 := by positivity
  have hxy1 : (xs.length : ℚ) + ys.length - 1 ≠ 0 := by intro h; nlinarith
  rw [mergeVar, vvar_eq_sum_sq xs hx0, vvar_eq_sum_sq ys hy0,
    vvar_eq_sum_sq (xs ++ ys) (by simp [hx0])]
  simp only [mergeMu, vmean, List.sum_append, List.length_append,
    List.map_append]
  push_cast
  field_simp
  ring

theorem mergeMu_comm (nA nB : ℕ) (x y : ℚ) :
    mergeMu nA nB x y = mergeMu nB nA y x := by
  simp only [mergeMu]
  ring_nf

theorem mergeVar_comm (nA nB : ℕ) (muA varA muB varB : ℚ) :
    mergeVar nA nB muA varA muB varB = mergeVar nB nA muB varB muA varA := by
  simp only [mergeVar, mergeMu]
  ring_nf

theorem mergeMu_assoc (n1 n2 n3 : ℕ) (h1 : n1 ≠ 0) (h2 : n2 ≠ 0) (h3 : n3 ≠ 0)
    (m1 m2 m3 : ℚ) :
    mergeMu (n1 + n2) n3 (mergeMu n1 n2 m1 m2) m3
      = mergeMu n1 (n2 + n3) m1 (mergeMu n2 n3 m2 m3) := by
  have h1' : (n1 : ℚ) ≠ 0 := Nat.cast_ne_zero.mpr h1
  have h2' : (n2 : ℚ) ≠ 0 := Nat.cast_ne_zero.mpr h2
  have h3' : (n3 : ℚ) ≠ 0 := Nat.cast_ne_zero.mpr h3
  have h12 : (n1 : ℚ) + n2 ≠ 0 := by positivity
  have h23 : (n2 : ℚ) + n3 ≠ 0 := by positivity
  have h123 : (n1 : ℚ) + n2 + n3 ≠ 0 := by positivity
  simp only [mergeMu]
  push_cast
  field_simp
  ring

theorem mergeVar_eq (nA nB : Nat) (hN : (nA : Rat) + nB ≠ 0) (muA varA muB varB : Rat) :
    mergeVar nA nB muA varA muB varB
      = (m2Tot nA muA varA + m2Tot nB muB varB
          - (mTot nA muA + mTot nB muB) ^ 2 / ((nA : Rat) + nB))
        / ((nA : Rat) + nB - 1) := by
  simp only [mergeVar, mergeMu, mTot, m2Tot]
  congr 1
  field_simp
  ring

theorem mTot_merge (nA nB : Nat) (hN : (nA : Rat) + nB ≠ 0) (muA muB : Rat) :
    mTot (nA + nB) (mergeMu nA nB muA muB) = mTot nA muA + mTot nB muB := by
  simp only [mTot, mergeMu]
  push_cast
  field_simp

theorem m2Tot_merge (nA nB : Nat) (hN : (nA : Rat) + nB ≠ 0)
    (hN1 : (nA : Rat) + nB - 1 ≠ 0) (muA varA muB varB : Rat) :
    m2Tot (nA + nB) (mergeMu nA nB muA muB) (mergeVar nA nB muA varA muB varB)
      = m2Tot nA muA varA + m2Tot nB muB varB := by
  rw [mergeVar_eq nA nB hN]
  simp only [m2Tot, mTot, mergeMu]
  push_cast
  field_simp
  ring

theorem mergeVar_assoc (n1 n2 n3 : Nat) (h1 : n1 ≠ 0) (h2 : n2 ≠ 0) (h3 : n3 ≠ 0)
    (m1 v1 m2 v2 m3 v3 : Rat) :
    mergeVar (n1 + n2) n3 (mergeMu n1 n2 m1 m2) (mergeVar n1 n2 m1 v1 m2 v2) m3 v3
      = mergeVar n1 (n2 + n3) m1 v1 (mergeMu n2 n3 m2 m3) (mergeVar n2 n3 m2 v2 m3 v3) := by
  have c1 : (1 : Rat) ≤ (n1 : Rat) := by exact_mod_cast Nat.one_le_iff_ne_zero.mpr h1
  have c2 : (1 : Rat) ≤ (n2 : Rat) := by exact_mod_cast Nat.one_le_iff_ne_zero.mpr h2
  have c3 : (1 : Rat) ≤ (n3 : Rat) := by exact_mod_cast Nat.one_le_iff_ne_zero.mpr h3
  have h12 : (n1 : Rat) + n2 ≠ 0 := by positivity
  have h23 : (n2 : Rat) + n3 ≠ 0 := by positivity
  have h12m : (n1 : Rat) + n2 - 1 ≠ 0 := by intro h; nlinarith
  have h23m : (n2 : Rat) + n3 - 1 ≠ 0 := by intro h; nlinarith
  have e12 : ((n1 + n2 : Nat) : Rat) + (n3 : Rat) ≠ 0 := by push_cast; positivity
  have e23 : ((n1 : Nat) : Rat) + ((n2 + n3 : Nat) : Rat) ≠ 0 := by push_cast; positivity
  rw [mergeVar_eq (n1 + n2) n3 e12, mergeVar_eq n1 (n2 + n3) e23,
    m2Tot_merge n1 n2 h12 h12m, m2Tot_merge n2 n3 h23 h23m,
    mTot_merge n1 n2 h12, mTot_merge n2 n3 h23]
  push_cast
  ring

/-! ## Layer-level facts -/

theorem length_col (rows : List (List ℚ)) (j : ℕ) : (col rows j).length = rows.length :=
  List.length_map _ _

theorem col_append (r s : List (List ℚ)) (j : ℕ) :
    col (r ++ s) j = col r j ++ col s j :=
  List.map_append _ _ _

theorem col_ne_nil (rows : List (List ℚ)) (j : ℕ) (h : rows ≠ []) : col rows j ≠ [] := by
  simpa [col] using h

theorem ncols_append (r s : List (List ℚ)) (h : r ≠ []) : ncols (r ++ s) = ncols r := by
  cases r with
  | nil => exact absurd rfl h
  | cons a t => rfl

theorem gp_of_one_lt (P : Batch) (h : 1 < P.length) :
    _get_gaussian_params P = .ok (fitStats P, false) := by
  unfold _get_gaussian_params fitStats
  rw [if_neg (by omega), if_pos h]

theorem gp_of_one (P : Batch) (h : P.length = 1) :
    _get_gaussian_params P
      = .ok (⟨(fitStats P).mu, List.replicate (fitStats P).mu.length 0⟩, true) := by
  unfold _get_gaussian_params fitStats
  rw [if_neg (by omega), if_neg (by omega)]

theorem mergeStats_pooled (P Q : Batch) (hP : 2 ≤ P.length) (hQ : 2 ≤ Q.length)
    (hw : ncols (Q.map List.flatten) = ncols (P.map List.flatten)) :
    mergeStats P.length Q.length (fitStats P) (fitStats Q) = fitStats (P ++ Q) := by
  have hPne : P ≠ [] := by intro h; rw [h] at hP; simp at hP
  have hQne : Q ≠ [] := by intro h; rw [h] at hQ; simp at hQ
  have hrp : P.map List.flatten ≠ [] := by simpa using hPne
  have hrq : Q.map List.flatten ≠ [] := by simpa using hQne
  have hflat : (P ++ Q).map List.flatten = P.map List.flatten ++ Q.map List.flatten :=
    List.map_append _ _ _
  have hnc : ncols ((P ++ Q).map List.flatten) = ncols (P.map List.flatten) := by
    rw [hflat]; exact ncols_append _ _ hrp
  have hlP : ∀ j, (col (P.map List.flatten) j).length = P.length := fun j => by
    rw [length_col, List.length_map]
  have hlQ : ∀ j, (col (Q.map List.flatten) j).length = Q.length := fun j => by
    rw [length_col, List.length_map]
  have keyMu : ∀ j, mergeMu P.length Q.length
      (vmean (col (P.map List.flatten) j)) (vmean (col (Q.map List.flatten) j))
        = vmean (col ((P ++ Q).map List.flatten) j) := fun j => by
    rw [hflat, col_append, ← hlP j, ← hlQ j]
    exact mergeMu_pooled _ _ (col_ne_nil _ _ hrp) (col_ne_nil _ _ hrq)
  have keyVar : ∀ j, mergeVar P.length Q.length
      (vmean (col (P.map List.flatten) j)) (vvar (col (P.map List.flatten) j))
      (vmean (col (Q.map List.flatten) j)) (vvar (col (Q.map List.flatten) j))
        = vvar (col ((P ++ Q).map List.flatten) j) := fun j => by
    rw [hflat, col_append, ← hlP j, ← hlQ j]
    exact mergeVar_pooled _ _ (by rw [hlP]; exact hP) (by rw [hlQ]; exact hQ)
  have hmu : (mergeStats P.length Q.length (fitStats P) (fitStats Q)).mu
      = (fitStats (P ++ Q)).mu := by
    simp only [mergeStats, fitStats, hw, hnc, List.zipWith_map, List.zipWith_same]
    exact List.map_congr_left fun j _ => keyMu j
  have hvar : (mergeStats P.length Q.length (fitStats P) (fitStats Q)).var
      = (fitStats (P ++ Q)).var := by
    simp only [mergeStats, fitStats, hw, hnc, List.zip_map', List.zipWith_map,
      List.zipWith_same]
    exact List.map_congr_left fun j _ => keyVar j
  cases h : mergeStats P.length Q.length (fitStats P) (fitStats Q) with
  | mk mu var =>
    rw [h] at hmu hvar
    rw [show (fitStats (P ++ Q)) = ⟨(fitStats (P ++ Q)).mu, (fitStats (P ++ Q)).var⟩ from rfl,
      ← hmu, ← hvar]

/-! ## Association-list facts -/

theorem find_mem {β : Type} (d : List (String × β)) (l : String) (v : β)
    (h : alist.find d l = some v) : (l, v) ∈ d := by
  induction d with
  | nil => simp [alist.find] at h
  | cons p rest ih =>
    obtain ⟨k, w⟩ := p
    by_cases hk : k = l
    · subst hk
      simp [alist.find] at h
      simp [h]
    · simp [alist.find, hk] at h
      exact List.mem_cons_of_mem _ (ih h)

theorem find_isSome_iff {β : Type} (d : List (String × β)) (l : String) :
    (alist.find d l).isSome ↔ l ∈ d.map Prod.fst := by
  induction d with
  | nil => simp [alist.find]
  | cons p rest ih =>
    obtain ⟨k, w⟩ := p
    by_cases hk : k = l
    · subst hk; simp [alist.find]
    · simp [alist.find, hk, ih, Ne.symm hk]

theorem mergeData_keys (nA nB : ℕ) (A b d : List (String × LayerStats))
    (h : mergeData nA nB A b = .ok d) : d.map Prod.fst = A.map Prod.fst := by
  induction A generalizing d with
  | nil => simp [mergeData] at h; simp [← h]
  | cons p rest ih =>
    obtain ⟨k, sa⟩ := p
    simp only [mergeData] at h
    cases hb : alist.find b k with
    | none => rw [hb] at h; simp at h
    | some sb =>
      rw [hb] at h
      cases hr : mergeData nA nB rest b with
      | error e => rw [hr] at h; simp at h
      | ok d' =>
        rw [hr] at h
        simp only [Except.ok.injEq] at h
        subst h
        simp [ih d' hr]

theorem mergeData_find (nA nB : ℕ) (A b d : List (String × LayerStats))
    (h : mergeData nA nB A b = .ok d) (l : String) :
    alist.find d l
      = (alist.find A l).bind fun sa =>
          (alist.find b l).map fun sb => mergeStats nA nB sa sb := by
  induction A generalizing d with
  | nil =>
    simp only [mergeData, Except.ok.injEq] at h
    subst h
    simp [alist.find]
  | cons p rest ih =>
    obtain ⟨k, sa⟩ := p
    simp only [mergeData] at h
    cases hb : alist.find b k with
    | none => rw [hb] at h; simp at h
    | some sb =>
      rw [hb] at h
      cases hr : mergeData nA nB rest b with
      | error e => rw [hr] at h; simp at h
      | ok d' =>
        rw [hr] at h
        simp only [Except.ok.injEq] at h
        subst h
        by_cases hk : k = l
        · subst hk
          simp [alist.find, hb]
        · simp [alist.find, hk, ih d' hr]

theorem sameSchema_find_a (a b : VDNAGauss) (h : sameSchema a b = true) :
    ∀ p ∈ a.data, ∃ sb, alist.find b.data p.1 = some sb
      ∧ p.2.mu.length = sb.mu.length := by
  simp only [sameSchema, Bool.and_eq_true, List.all_eq_true] at h
  intro p hp
  have := h.1 p hp
  cases hb : alist.find b.data p.1 with
  | none => rw [hb] at this; simp at this
  | some sb =>
    rw [hb] at this
    simp only [beq_iff_eq] at this
    exact ⟨sb, rfl, this⟩

theorem sameSchema_find_b (a b : VDNAGauss) (h : sameSchema a b = true) :
    ∀ p ∈ b.data, (alist.find a.data p.1).isSome := by
  simp only [sameSchema, Bool.and_eq_true, List.all_eq_true] at h
  exact h.2

theorem mergeData_ok (b : List (String × LayerStats)) (nA nB : ℕ) :
    ∀ A : List (String × LayerStats),
      (∀ p ∈ A, (alist.find b p.1).isSome) →
      ∃ d, mergeData nA nB A b = .ok d := by
  intro A
  induction A with
  | nil => exact fun _ => ⟨[], rfl⟩
  | cons p rest ih =>
    intro h1
    obtain ⟨k, sa⟩ := p
    have hk := h1 (k, sa) (List.mem_cons_self _ _)
    obtain ⟨d', hd'⟩ := ih fun q hq => h1 q (List.mem_cons_of_mem _ hq)
    cases hb : alist.find b k with
    | none => rw [hb] at hk; simp at hk
    | some sb =>
      exact ⟨(k, mergeStats nA nB sa sb) :: d', by
        simp only [mergeData, hb, hd']⟩

/-! ## Merge-level facts -/

theorem zipWith_ext {α β γ : Type} {f g : α → β → γ} (h : ∀ x y, f x y = g x y)
    (l1 : List α) (l2 : List β) : List.zipWith f l1 l2 = List.zipWith g l1 l2 := by
  rw [show f = g from funext fun x => funext fun y => h x y]

theorem add_ok_elim (a b v : VDNAGauss) (h : a.add b = .ok v) :
    sameSchema a b = true
      ∧ v.num_images = a.num_images + b.num_images
      ∧ mergeData a.num_images b.num_images a.data b.data = .ok v.data := by
  unfold VDNAGauss.add at h
  by_cases hs : sameSchema a b
  · rw [if_pos hs] at h
    cases hm : mergeData a.num_images b.num_images a.data b.data with
    | error e => rw [hm] at h; simp at h
    | ok d =>
      rw [hm] at h
      simp only [Except.ok.injEq] at h
      subst h
      exact ⟨hs, rfl, rfl⟩
  · rw [if_neg hs] at h
    simp at h

theorem mergeStats_comm (nA nB : ℕ) (sa sb : LayerStats) :
    mergeStats nA nB sa sb = mergeStats nB nA sb sa := by
  have hmu : (mergeStats nA nB sa sb).mu = (mergeStats nB nA sb sa).mu := by
    simp only [mergeStats]
    rw [List.zipWith_comm (mergeMu nA nB) sa.mu sb.mu]
    exact zipWith_ext (fun x y => mergeMu_comm nA nB y x) _ _
  have hvar : (mergeStats nA nB sa sb).var = (mergeStats nB nA sb sa).var := by
    simp only [mergeStats]
    rw [List.zipWith_comm _ (sa.mu.zip sa.var) (sb.mu.zip sb.var)]
    exact zipWith_ext (fun (p q : ℚ × ℚ) => mergeVar_comm nA nB q.1 q.2 p.1 p.2) _ _
  cases hm : mergeStats nA nB sa sb with
  | mk mu var =>
    rw [hm] at hmu hvar
    rw [show mergeStats nB nA sb sa
        = ⟨(mergeStats nB nA sb sa).mu, (mergeStats nB nA sb sa).var⟩ from rfl,
      ← hmu, ← hvar]

theorem mergeStats_assoc (nA nB nC : ℕ) (hA : nA ≠ 0) (hB : nB ≠ 0) (hC : nC ≠ 0)
    (sa sb sc : LayerStats) :
    mergeStats (nA + nB) nC (mergeStats nA nB sa sb) sc
      = mergeStats nA (nB + nC) sa (mergeStats nB nC sb sc) := by
  have hmu : ∀ (x y z : ℚ), mergeMu (nA + nB) nC (mergeMu nA nB x y) z
      = mergeMu nA (nB + nC) x (mergeMu nB nC y z) := fun x y z =>
    mergeMu_assoc nA nB nC hA hB hC x y z
  have hvar : ∀ (x u y v z w : ℚ),
      mergeVar (nA + nB) nC (mergeMu nA nB x y) (mergeVar nA nB x u y v) z w
        = mergeVar nA (nB + nC) x u (mergeMu nB nC y z) (mergeVar nB nC y v z w) :=
    fun x u y v z w => mergeVar_assoc nA nB nC hA hB hC x u y v z w
  have fmu : (mergeStats (nA + nB) nC (mergeStats nA nB sa sb) sc).mu
      = (mergeStats nA (nB + nC) sa (mergeStats nB nC sb sc)).mu := by
    simp only [mergeStats]
    apply List.ext_get?
    intro j
    simp only [List.get?_eq_getElem?, List.getElem?_zipWith']
    cases sa.mu[j]? <;> cases sb.mu[j]? <;> cases sc.mu[j]? <;>
      simp [Option.bind, hmu]
  have fvar : (mergeStats (nA + nB) nC (mergeStats nA nB sa sb) sc).var
      = (mergeStats nA (nB + nC) sa (mergeStats nB nC sb sc)).var := by
    simp only [mergeStats]
    apply List.ext_get?
    intro j
    simp only [List.get?_eq_getElem?, List.getElem?_zipWith', List.zip_eq_zipWith]
    cases sa.mu[j]? <;> cases sb.mu[j]? <;> cases sc.mu[j]? <;>
      cases sa.var[j]? <;> cases sb.var[j]? <;> cases sc.var[j]? <;>
      simp [Option.bind, hmu, hvar]
  cases hm : mergeStats (nA + nB) nC (mergeStats nA nB sa sb) sc with
  | mk mu var =>
    rw [hm] at fmu fvar
    rw [show mergeStats nA (nB + nC) sa (mergeStats nB nC sb sc)
        = ⟨(mergeStats nA (nB + nC) sa (mergeStats nB nC sb sc)).mu,
           (mergeStats nA (nB + nC) sa (mergeStats nB nC sb sc)).var⟩ from rfl,
      ← fmu, ← fvar]

theorem find_eq_none {β : Type} (d : List (String × β)) (l : String)
    (h : l ∉ d.map Prod.fst) : alist.find d l = none := by
  cases hf : alist.find d l with
  | none => rfl
  | some v =>
    exact absurd ((find_isSome_iff d l).mp (by rw [hf]; rfl)) h

theorem find_eq_of_nodup {β : Type} (d : List (String × β))
    (hnd : (d.map Prod.fst).Nodup) (p : String × β) (hp : p ∈ d) :
    alist.find d p.1 = some p.2 := by
  induction d with
  | nil => simp at hp
  | cons q rest ih =>
    obtain ⟨k, v⟩ := q
    simp only [List.map_cons, List.nodup_cons] at hnd
    rcases List.mem_cons.mp hp with h | h
    · subst h
      simp [alist.find]
    · have hk : k ≠ p.1 := by
        intro he
        exact hnd.1 (he ▸ List.mem_map_of_mem Prod.fst h)
      simp only [alist.find, if_neg hk]
      exact ih hnd.2 h

theorem alist_eq_of_find_eq {β : Type} :
    ∀ (d1 d2 : List (String × β)), d1.map Prod.fst = d2.map Prod.fst →
      (d1.map Prod.fst).Nodup → (∀ l, alist.find d1 l = alist.find d2 l) →
      d1 = d2
  | [], [], _, _, _ => rfl
  | [], (q :: d2), hk, _, _ => by simp at hk
  | (p :: d1), [], hk, _, _ => by simp at hk
  | (p :: d1), (q :: d2), hk, hnd, hf => by
    obtain ⟨k1, v1⟩ := p
    obtain ⟨k2, v2⟩ := q
    simp only [List.map_cons, List.cons.injEq] at hk
    obtain ⟨hkk, hkt⟩ := hk
    subst hkk
    simp only [List.map_cons, List.nodup_cons] at hnd
    have hv : v1 = v2 := by
      have := hf k1
      simp [alist.find] at this
      exact this
    subst hv
    have htail : d1 = d2 := by
      apply alist_eq_of_find_eq d1 d2 hkt hnd.2
      intro l
      by_cases hl : l ∈ d1.map Prod.fst
      · have hne : k1 ≠ l := fun he => hnd.1 (he ▸ hl)
        have := hf l
        simpa [alist.find, if_neg hne] using this
      · rw [find_eq_none d1 l hl, find_eq_none d2 l (hkt ▸ hl)]
    rw [htail]

theorem find_map_stats {α β : Type} (L : List (String × α)) (g : α → β) (l : String) :
    alist.find (L.map fun p => (p.1, g p.2)) l = (alist.find L l).map g := by
  induction L with
  | nil => simp [alist.find]
  | cons p rest ih =>
    obtain ⟨k, v⟩ := p
    by_cases hk : k = l
    · subst hk; simp [alist.find]
    · simp [alist.find, hk, ih]

/-! ## fitData facts -/

theorem fitData_of_one_lt (F : List (String × Batch))
    (h : ∀ p ∈ F, 1 < (p.2 : Batch).length) :
    fitData F = .ok (F.map fun p => (p.1, fitStats p.2)) := by
  induction F with
  | nil => rfl
  | cons p rest ih =>
    obtain ⟨l, P⟩ := p
    have h1 : 1 < P.length := h (l, P) (List.mem_cons_self _ _)
    simp only [fitData, gp_of_one_lt P h1,
      ih fun q hq => h q (List.mem_cons_of_mem _ hq), List.map_cons]

theorem fitData_keys (F : List (String × Batch)) (D : List (String × LayerStats))
    (h : fitData F = .ok D) : D.map Prod.fst = F.map Prod.fst := by
  induction F generalizing D with
  | nil =>
    simp only [fitData, Except.ok.injEq] at h
    subst h
    rfl
  | cons p rest ih =>
    obtain ⟨l, P⟩ := p
    simp only [fitData] at h
    cases hg : _get_gaussian_params P with
    | error e => rw [hg] at h; simp at h
    | ok q =>
      rw [hg] at h
      cases hr : fitData rest with
      | error e => rw [hr] at h; simp at h
      | ok D' =>
        rw [hr] at h
        simp only [Except.ok.injEq] at h
        subst h
        simp [ih D' hr]

theorem fitData_find (F : List (String × Batch)) (D : List (String × LayerStats))
    (h : fitData F = .ok D) (l : String) (P : Batch)
    (hP : alist.find F l = some P) :
    ∃ st w, _get_gaussian_params P = .ok (st, w) ∧ alist.find D l = some st := by
  induction F generalizing D with
  | nil => simp [alist.find] at hP
  | cons p rest ih =>
    obtain ⟨k, Q⟩ := p
    simp only [fitData] at h
    cases hg : _get_gaussian_params Q with
    | error e => rw [hg] at h; simp at h
    | ok q =>
      rw [hg] at h
      cases hr : fitData rest with
      | error e => rw [hr] at h; simp at h
      | ok D' =>
        rw [hr] at h
        simp only [Except.ok.injEq] at h
        subst h
        by_cases hk : k = l
        · subst hk
          have hQP : Q = P := by simpa [alist.find] using hP
          subst hQP
          exact ⟨q.1, q.2, hg, by simp [alist.find]⟩
        · simp only [alist.find, if_neg hk] at hP ⊢
          exact ih D' hr hP

theorem gp_ok_of_ne_nil (P : Batch) (h : P ≠ []) :
    ∃ r, _get_gaussian_params P = .ok r := by
  have h0 : ¬ P.length = 0 := fun he => h (List.length_eq_zero.mp he)
  unfold _get_gaussian_params
  rw [if_neg h0]
  by_cases h1 : P.length > 1
  · rw [if_pos h1]; exact ⟨_, rfl⟩
  · rw [if_neg h1]; exact ⟨_, rfl⟩

/-! ## Claim theorems -/

/-- C2: for every feature batch with more than one sample, fitting computes,
per layer and per neuron `j`, `mu[j]` as the arithmetic mean of the neuron's
values across samples and `var[j]` as the unbiased sample variance (sum of
squared deviations from the mean divided by `sample_count - 1`), the neuron
axis being the flattening of all non-sample dimensions. -/
theorem C2_fit_mean_and_unbiased_variance
    (d v : VDNAGauss) (F : List (String × Batch))
    (hfit : d.fit_distribution F = .ok v)
    (l : String) (P : Batch) (hP : alist.find F l = some P)
    (hn : 1 < P.length) :
    ∃ st, alist.find v.data l = some st
      ∧ st.mu.length = ncols (P.map List.flatten)
      ∧ st.var.length = ncols (P.map List.flatten)
      ∧ (∀ j, j < ncols (P.map List.flatten) →
          st.mu[j]? = some ((col (P.map List.flatten) j).sum / (P.length : ℚ))
          ∧ st.var[j]? = some (((col (P.map List.flatten) j).map
              (fun x => (x - (col (P.map List.flatten) j).sum / (P.length : ℚ)) ^ 2)).sum
            / ((P.length : ℚ) - 1))) := by
  have hfd : fitData F = .ok v.data := by
    unfold VDNAGauss.fit_distribution at hfit
    cases hf : fitData F with
    | error e => rw [hf] at hfit; simp [Except.map] at hfit
    | ok D =>
      rw [hf] at hfit
      simp only [Except.map, Except.ok.injEq] at hfit
      rw [← hfit]
  obtain ⟨st, w, hg, hfind⟩ := fitData_find F v.data hfd l P hP
  rw [gp_of_one_lt P hn] at hg
  simp only [Except.ok.injEq, Prod.mk.injEq] at hg
  obtain ⟨hst, -⟩ := hg
  subst hst
  refine ⟨fitStats P, hfind, by simp [fitStats], by simp [fitStats], ?_⟩
  intro j hj
  have hcl : ((col (P.map List.flatten) j).length : ℚ) = (P.length : ℚ) := by
    rw [length_col, List.length_map]
  constructor
  · simp only [fitStats, List.getElem?_map, List.getElem?_range hj, Option.map_some']
    rw [vmean, hcl]
  · simp only [fitStats, List.getElem?_map, List.getElem?_range hj, Option.map_some']
    rw [vvar, vmean, hcl]

/-- C3: fitting a batch with exactly one sample succeeds (it is not an
error), returns `mu` equal to the single flattened sample, sets `var` to a
zero vector of the same length as `mu`, and emits the warning diagnostic
(the returned flag is `true`, modelling the printed warning). -/
theorem C3_singleton_sample_zero_variance (P : Batch) (s : Sample)
    (hP : P = [s]) :
    ∃ st, _get_gaussian_params P = .ok (st, true)
      ∧ st.var = List.replicate st.mu.length 0
      ∧ st.mu.length = s.flatten.length
      ∧ ∀ j, j < s.flatten.length → st.mu[j]? = some (s.flatten.getD j 0) := by
  subst hP
  have h1 : ([s] : Batch).length = 1 := rfl
  refine ⟨_, gp_of_one [s] h1, rfl, ?_, ?_⟩
  · simp [fitStats, ncols]
  · intro j hj
    have hj' : j < ncols (([s] : Batch).map List.flatten) := by
      simpa [ncols] using hj
    simp only [fitStats, List.getElem?_map, List.getElem?_range hj', Option.map_some',
      Option.some.injEq]
    show vmean (col ([s.flatten] : List (List ℚ)) j) = s.flatten.getD j 0
    simp [col, vmean]

theorem dictSet_append {β : Type} (d : List (String × β)) (k : String) (v : β)
    (h : k ∉ d.map Prod.fst) : dictSet d k v = d ++ [(k, v)] := by
  induction d with
  | nil => rfl
  | cons p rest ih =>
    obtain ⟨k0, v0⟩ := p
    have hne : k0 ≠ k := fun he => h (by simp [he])
    have h' : k ∉ rest.map Prod.fst := fun hm => h (by simp [hm])
    simp only [dictSet, if_neg hne, List.cons_append, ih h']

theorem fitDataPartial_stops (acc : List (String × LayerStats)) (l : String)
    (H : List (String × Batch)) :
    fitDataPartial acc ((l, ([] : Batch)) :: H) = (acc, some .shapeError) := rfl

theorem fitDataPartial_all_ok :
    ∀ (G : List (String × Batch)) (acc : List (String × LayerStats))
      (rest : List (String × Batch)),
      (∀ p ∈ G, (p.2 : Batch).length ≠ 0) →
      (∀ p ∈ G, p.1 ∉ acc.map Prod.fst) →
      (G.map Prod.fst).Nodup →
      ∃ D, fitDataPartial acc (G ++ rest) = fitDataPartial (acc ++ D) rest
        ∧ D.map Prod.fst = G.map Prod.fst
        ∧ ∀ p ∈ G, ∃ st w, _get_gaussian_params p.2 = .ok (st, w)
            ∧ alist.find D p.1 = some st := by
  intro G
  induction G with
  | nil =>
    intro acc rest _ _ _
    exact ⟨[], by simp, rfl, by simp⟩
  | cons q G' ih =>
    intro acc rest hne hacc hnd
    obtain ⟨k, b⟩ := q
    obtain ⟨r, hr⟩ := gp_ok_of_ne_nil b
      (fun he => hne (k, b) (List.mem_cons_self _ _) (by rw [he]; rfl))
    simp only [List.map_cons, List.nodup_cons] at hnd
    have hkacc : k ∉ acc.map Prod.fst := hacc (k, b) (List.mem_cons_self _ _)
    have hds : dictSet acc k r.1 = acc ++ [(k, r.1)] := dictSet_append acc k r.1 hkacc
    obtain ⟨D', hD', hkeys', hfind'⟩ := ih (acc ++ [(k, r.1)]) rest
      (fun p hp => hne p (List.mem_cons_of_mem _ hp))
      (fun p hp => by
        simp only [List.map_append, List.mem_append]
        rintro (h | h)
        · exact hacc p (List.mem_cons_of_mem _ hp) h
        · simp only [List.map_cons, List.map_nil, List.mem_singleton] at h
          exact hnd.1 (h ▸ List.mem_map_of_mem Prod.fst hp))
      hnd.2
    refine ⟨(k, r.1) :: D', ?_, by simp [hkeys'], ?_⟩
    · show fitDataPartial acc ((k, b) :: (G' ++ rest)) = _
      simp only [fitDataPartial, hr, hds, hD']
      simp [List.append_assoc]
    · intro p hp
      rcases List.mem_cons.mp hp with h | h
      · subst h
        exact ⟨r.1, r.2, by rw [hr], by simp [alist.find]⟩
      · obtain ⟨st, w, hst, hfd⟩ := hfind' p h
        refine ⟨st, w, hst, ?_⟩
        have hkp : k ≠ p.1 := fun he => hnd.1 (he ▸ List.mem_map_of_mem Prod.fst h)
        simp [alist.find, hkp, hfd]

/-- C4 counterexample: fitting layer `"L"` (two samples) followed by layer
`"b"` (zero samples) does raise the shape error, but the returned object
retains layer `"L"`'s fitted statistics, refuting "raises rather than
producing statistics for any layer": the raise does not roll back the
per-layer mutation of `self.data`. -/
theorem C4_counterexample :
    VDNAGauss.fit_distribution_mut ⟨[], 0⟩ [("L", PW), ("b", ([] : Batch))]
      = (⟨[("L", fitStats PW)], 0⟩, some .shapeError) := rfl

/-- C4 (amended): `fit_distribution` raises the shape error as soon as it
reaches a layer whose batch has zero samples (here placed after the
error-free layers `G`), but the statistics of every layer fitted before the
raising one remain stored on the object — the raise does not undo the
per-layer mutation of `self.data` (layer keys unique, as Python dict keys
are). -/
theorem C4_raises_keeping_earlier_layers
    (d : VDNAGauss) (G H : List (String × Batch)) (l : String)
    (hG : ∀ p ∈ G, (p.2 : Batch).length ≠ 0)
    (hnd : (G.map Prod.fst).Nodup) :
    (d.fit_distribution_mut (G ++ (l, ([] : Batch)) :: H)).2 = some .shapeError
      ∧ ∀ p ∈ G, ∃ st w, _get_gaussian_params p.2 = .ok (st, w)
          ∧ alist.find
              (d.fit_distribution_mut (G ++ (l, ([] : Batch)) :: H)).1.data p.1
            = some st := by
  obtain ⟨D, hD, hkeys, hfind⟩ :=
    fitDataPartial_all_ok G [] ((l, ([] : Batch)) :: H) hG (by simp) hnd
  have hrun : fitDataPartial [] (G ++ (l, ([] : Batch)) :: H)
      = (D, some .shapeError) := by
    rw [hD, fitDataPartial_stops]
    simp
  constructor
  · show (fitDataPartial [] _).2 = _
    rw [hrun]
  · intro p hp
    obtain ⟨st, w, hst, hfd⟩ := hfind p hp
    refine ⟨st, w, hst, ?_⟩
    show alist.find (fitDataPartial [] _).1 p.1 = some st
    rw [hrun]
    exact hfd

theorem load_keys (archive : List (String × ArchiveVal)) (nl : List String)
    (E : List (String × LayerStats)) (h : _load_dist_data archive nl = .ok E) :
    E.map Prod.fst = nl := by
  induction nl generalizing E with
  | nil =>
    simp only [_load_dist_data, Except.ok.injEq] at h
    subst h
    rfl
  | cons l rest ih =>
    simp only [_load_dist_data] at h
    cases hm : npzGet archive ("mu-" ++ l) with
    | error e => rw [hm] at h; simp at h
    | ok mu =>
      rw [hm] at h
      cases hv : npzGet archive ("var-" ++ l) with
      | error e => rw [hv] at h; simp at h
      | ok var =>
        rw [hv] at h
        cases hr : _load_dist_data archive rest with
        | error e => rw [hr] at h; simp at h
        | ok E' =>
          rw [hr] at h
          simp only [Except.ok.injEq] at h
          subst h
          simp [ih E' hr]

/-- C9: the global query returns `mu` and `var` as the concatenations of the
per-layer vectors in the insertion order of `self.data`; that order is the
order of `features_dict` for a fitted distribution and the order of
`self.neurons_list` for a loaded one.  Two calls on the same (immutable)
state are the same pure value, so determinism is automatic. -/
theorem C9_query_insertion_order
    (d v : VDNAGauss) (F : List (String × Batch))
    (hfit : d.fit_distribution F = .ok v)
    (archive : List (String × ArchiveVal)) (nl : List String)
    (E : List (String × LayerStats))
    (hload : _load_dist_data archive nl = .ok E) :
    v.get_all_neurons_dists
        = ((v.data.map fun p => p.2.mu).flatten,
           (v.data.map fun p => p.2.var).flatten)
      ∧ v.data.map Prod.fst = F.map Prod.fst
      ∧ E.map Prod.fst = nl := by
  have hfd : fitData F = .ok v.data := by
    unfold VDNAGauss.fit_distribution at hfit
    cases hf : fitData F with
    | error e => rw [hf] at hfit; simp [Except.map] at hfit
    | ok D =>
      rw [hf] at hfit
      simp only [Except.map, Except.ok.injEq] at hfit
      rw [← hfit]
  exact ⟨rfl, fitData_keys F v.data hfd, load_keys archive nl E hload⟩

/-- C10: for a layer with `n` neurons and any index `-n ≤ i < 0`,
`get_neuron_dist` does not fail: it returns the `mu`/`var` of neuron
`n + i`, Python-style indexing from the end. -/
theorem C10_negative_indexing (d : VDNAGauss) (l : String) (st : LayerStats)
    (hl : alist.find d.data l = some st) (n : ℕ)
    (hmu : st.mu.length = n) (hvar : st.var.length = n)
    (i : ℤ) (hlo : -(n : ℤ) ≤ i) (hhi : i < 0) :
    d.get_neuron_dist l i
      = some (st.mu.getD ((n : ℤ) + i).toNat 0, st.var.getD ((n : ℤ) + i).toNat 0) := by
  have hidx : ∀ xs : List ℚ, xs.length = n →
      tensorIndex xs i = some (xs.getD ((n : ℤ) + i).toNat 0) := by
    intro xs hxs
    have hnn : 0 ≤ (xs.length : ℤ) + i := by rw [hxs]; omega
    have hlt : ((xs.length : ℤ) + i).toNat < xs.length := by omega
    unfold tensorIndex
    rw [if_pos hhi, if_pos hnn, List.getElem?_eq_getElem hlt,
      List.getD_eq_getElem?_getD, List.getElem?_eq_getElem (by omega : ((n : ℤ) + i).toNat < xs.length)]
    simp only [Option.getD_some, Option.some.injEq]
    congr 1
    omega
  unfold VDNAGauss.get_neuron_dist
  rw [hl]
  simp only [hidx st.mu hmu, hidx st.var hvar]

theorem sameSchema_iff_schemaSpec (a b : VDNAGauss)
    (hna : (a.data.map Prod.fst).Nodup) (hnb : (b.data.map Prod.fst).Nodup) :
    sameSchema a b = true ↔ schemaSpec a b := by
  constructor
  · intro h
    constructor
    · intro l
      constructor
      · intro hla
        obtain ⟨sa, hsa⟩ := Option.isSome_iff_exists.mp ((find_isSome_iff _ _).mpr hla)
        obtain ⟨sb, hsb, -⟩ := sameSchema_find_a a b h (l, sa) (find_mem _ _ _ hsa)
        exact (find_isSome_iff _ _).mp (by rw [hsb]; rfl)
      · intro hlb
        obtain ⟨sb, hsb⟩ := Option.isSome_iff_exists.mp ((find_isSome_iff _ _).mpr hlb)
        have := sameSchema_find_b a b h (l, sb) (find_mem _ _ _ hsb)
        exact (find_isSome_iff _ _).mp this
    · intro l sa sb hsa hsb
      obtain ⟨sb', hsb', hlen⟩ := sameSchema_find_a a b h (l, sa) (find_mem _ _ _ hsa)
      rw [hsb] at hsb'
      cases hsb'
      exact hlen
  · intro ⟨hkeys, hlen⟩
    unfold sameSchema
    rw [Bool.and_eq_true, List.all_eq_true, List.all_eq_true]
    constructor
    · intro p hp
      have hfa : alist.find a.data p.1 = some p.2 := find_eq_of_nodup _ hna p hp
      have hkb : p.1 ∈ b.data.map Prod.fst :=
        (hkeys p.1).mp (List.mem_map_of_mem Prod.fst hp)
      obtain ⟨sb, hsb⟩ := Option.isSome_iff_exists.mp ((find_isSome_iff _ _).mpr hkb)
      rw [hsb]
      simp only [beq_iff_eq]
      exact hlen p.1 p.2 sb hfa hsb
    · intro p hp
      have hkb : p.1 ∈ a.data.map Prod.fst :=
        (hkeys p.1).mpr (List.mem_map_of_mem Prod.fst hp)
      exact (find_isSome_iff _ _).mpr hkb

/-- C5: merging succeeds exactly when the two operands have identical layer
name sets and identical per-layer neuron counts, and fails with
`SchemaMismatchError` otherwise.  The schema check itself is modelled from
the spec (`_common_before_add` lives in `vdna_base.py`, outside the given
sources); layer keys are `Nodup` because Python dict keys are unique. -/
theorem C5_schema_mismatch (a b : VDNAGauss)
    (hna : (a.data.map Prod.fst).Nodup) (hnb : (b.data.map Prod.fst).Nodup) :
    ((∃ v, a.add b = .ok v) ↔ schemaSpec a b)
      ∧ (¬ schemaSpec a b → a.add b = .error .schemaMismatchError) := by
  have herr : ¬ schemaSpec a b → a.add b = .error .schemaMismatchError := by
    intro hn
    have hs : sameSchema a b ≠ true := fun h =>
      hn ((sameSchema_iff_schemaSpec a b hna hnb).mp h)
    unfold VDNAGauss.add
    rw [if_neg hs]
  constructor
  · constructor
    · intro ⟨v, hv⟩
      exact (sameSchema_iff_schemaSpec a b hna hnb).mp (add_ok_elim a b v hv).1
    · intro hp
      have hs : sameSchema a b = true :=
        (sameSchema_iff_schemaSpec a b hna hnb).mpr hp
      obtain ⟨d, hd⟩ := mergeData_ok b.data a.num_images b.num_images a.data
        fun p hp' => by
          obtain ⟨sb, hsb, -⟩ := sameSchema_find_a a b hs p hp'
          rw [hsb]; rfl
      refine ⟨⟨d, a.num_images + b.num_images⟩, ?_⟩
      unfold VDNAGauss.add
      rw [if_pos hs, hd]
  · exact herr

/-- C6 counterexample: with `n_a = 1` and `n_b = 0` (so `n_a + n_b - 1 = 0`)
and matching schemas, `merge` does not fail with any error: the division is
performed and a distribution is returned (the claim asserts a
`DegenerateMergeError` which the code does not have). -/
theorem C6_counterexample :
    VDNAGauss.add ⟨[("L", ⟨[1], [0]⟩)], 1⟩ ⟨[("L", ⟨[3], [0]⟩)], 0⟩
      = .ok ⟨[("L", ⟨[1], [0]⟩)], 1⟩ := by
  simp [VDNAGauss.add, sameSchema, alist.find, mergeData, mergeStats, mergeMu,
    mergeVar]

/-- C6 amended: whenever the (spec-modelled) schema check passes and
`n_a + n_b = 1` (the degenerate denominator `n_a + n_b - 1 = 0`), `merge`
does not raise: it performs the division anyway (`x / 0` junk values in the
exact model, `NaN`/`Inf` in torch) and returns a merged distribution. -/
theorem C6_no_degenerate_guard (a b : VDNAGauss)
    (h : sameSchema a b = true) (hdeg : a.num_images + b.num_images = 1) :
    ∃ v, a.add b = .ok v := by
  obtain ⟨d, hd⟩ := mergeData_ok b.data a.num_images b.num_images a.data
    fun p hp => by
      obtain ⟨sb, hsb, -⟩ := sameSchema_find_a a b h p hp
      rw [hsb]; rfl
  refine ⟨⟨d, a.num_images + b.num_images⟩, ?_⟩
  unfold VDNAGauss.add
  rw [if_pos h, hd]

/-- C7: merging is commutative and associative in exact arithmetic, both on
`num_images` and entrywise on every layer's statistics, for positive sample
counts (which make every denominator in the formulas non-zero). -/
theorem C7_merge_comm_assoc
    (a b c ab ba abc bc abc' : VDNAGauss)
    (ha : 1 ≤ a.num_images) (hb : 1 ≤ b.num_images) (hc : 1 ≤ c.num_images)
    (hab : a.add b = .ok ab) (hba : b.add a = .ok ba)
    (habc : ab.add c = .ok abc) (hbc : b.add c = .ok bc)
    (habc' : a.add bc = .ok abc') :
    (ab.num_images = ba.num_images
      ∧ ∀ l, alist.find ab.data l = alist.find ba.data l)
    ∧ (abc.num_images = abc'.num_images
      ∧ ∀ l, alist.find abc.data l = alist.find abc'.data l) := by
  obtain ⟨-, hnab, hmab⟩ := add_ok_elim a b ab hab
  obtain ⟨-, hnba, hmba⟩ := add_ok_elim b a ba hba
  obtain ⟨-, hnabc, hmabc⟩ := add_ok_elim ab c abc habc
  obtain ⟨-, hnbc, hmbc⟩ := add_ok_elim b c bc hbc
  obtain ⟨-, hnabc', hmabc'⟩ := add_ok_elim a bc abc' habc'
  have hA : a.num_images ≠ 0 := Nat.one_le_iff_ne_zero.mp ha
  have hB : b.num_images ≠ 0 := Nat.one_le_iff_ne_zero.mp hb
  have hC : c.num_images ≠ 0 := Nat.one_le_iff_ne_zero.mp hc
  refine ⟨⟨by rw [hnab, hnba, Nat.add_comm], ?_⟩,
    ⟨by rw [hnabc, hnabc', hnab, hnbc, Nat.add_assoc], ?_⟩⟩
  · intro l
    rw [mergeData_find _ _ _ _ _ hmab l, mergeData_find _ _ _ _ _ hmba l]
    cases alist.find a.data l <;> cases alist.find b.data l <;>
      simp [mergeStats_comm]
  · intro l
    rw [mergeData_find _ _ _ _ _ hmabc l, mergeData_find _ _ _ _ _ hmabc' l,
      mergeData_find _ _ _ _ _ hmab l, mergeData_find _ _ _ _ _ hmbc l,
      hnab, hnbc]
    cases alist.find a.data l <;> cases alist.find b.data l <;>
      cases alist.find c.data l <;>
      simp [mergeStats_assoc _ _ _ hA hB hC]

theorem map_fst_statmap {α β : Type} (F : List (String × α)) (g : α → β) :
    (F.map fun p => (p.1, g p.2)).map Prod.fst = F.map Prod.fst := by
  induction F with
  | nil => rfl
  | cons p r ih => simp [ih]

theorem forall_mem_zipWith {α β γ : Type} (f : α → β → γ) (P : γ → Prop) :
    ∀ (l1 : List α) (l2 : List β), (∀ x ∈ l1, ∀ y ∈ l2, P (f x y)) →
      ∀ z ∈ List.zipWith f l1 l2, P z
  | [], _, _, z, hz => by simp at hz
  | _ :: _, [], _, z, hz => by simp at hz
  | x :: l1, y :: l2, h, z, hz => by
    rcases List.mem_cons.mp hz with h1 | h1
    · subst h1
      exact h x (List.mem_cons_self _ _) y (List.mem_cons_self _ _)
    · exact forall_mem_zipWith f P l1 l2
        (fun u hu v hv => h u (List.mem_cons_of_mem _ hu) v (List.mem_cons_of_mem _ hv))
        z h1

theorem mergeData_skip (nA nB : ℕ) (A : List (String × LayerStats))
    (l : String) (x : LayerStats) (B : List (String × LayerStats))
    (h : l ∉ A.map Prod.fst) :
    mergeData nA nB A ((l, x) :: B) = mergeData nA nB A B := by
  induction A with
  | nil => rfl
  | cons p rest ih =>
    obtain ⟨k, sa⟩ := p
    have hlk : l ≠ k := by
      intro he
      exact h (by simp [he])
    simp only [mergeData, alist.find, if_neg hlk]
    rw [ih fun hm => h (List.mem_cons_of_mem _ hm)]

theorem C1_core (nA nB : ℕ) :
    ∀ (F G : List (String × Batch)),
      F.map Prod.fst = G.map Prod.fst →
      (F.map Prod.fst).Nodup →
      (∀ p ∈ F, (p.2 : Batch).length = nA) →
      (∀ p ∈ G, (p.2 : Batch).length = nB) →
      2 ≤ nA → 2 ≤ nB →
      (∀ l P Q, alist.find F l = some P → alist.find G l = some Q →
        ncols ((Q : Batch).map List.flatten) = ncols ((P : Batch).map List.flatten)) →
      mergeData nA nB (F.map fun p => (p.1, fitStats p.2))
          (G.map fun p => (p.1, fitStats p.2))
        = .ok ((List.zipWith (fun p q => (p.1, p.2 ++ q.2)) F G).map
            fun p => (p.1, fitStats p.2)) := by
  intro F
  induction F with
  | nil =>
    intro G hkeys _ _ _ _ _ _
    have : G = [] := by
      cases G with
      | nil => rfl
      | cons q G' => simp at hkeys
    subst this
    rfl
  | cons p F' ih =>
    intro G hkeys hnodup hla hlb hA2 hB2 hw
    obtain ⟨k, P⟩ := p
    cases G with
    | nil => simp at hkeys
    | cons q G' =>
      obtain ⟨k2, Q⟩ := q
      simp only [List.map_cons, List.cons.injEq] at hkeys
      obtain ⟨hk, hkt⟩ := hkeys
      subst hk
      simp only [List.map_cons, List.nodup_cons] at hnodup
      have hPlen : P.length = nA := hla (k, P) (List.mem_cons_self _ _)
      have hQlen : Q.length = nB := hlb (k, Q) (List.mem_cons_self _ _)
      have hfF : alist.find ((k, P) :: F') k = some P := by
        simp [alist.find]
      have hfG : alist.find ((k, Q) :: G') k = some Q := by
        simp [alist.find]
      have hwid := hw k P Q hfF hfG
      have hrec := ih G' hkt hnodup.2
        (fun r hr => hla r (List.mem_cons_of_mem _ hr))
        (fun r hr => hlb r (List.mem_cons_of_mem _ hr))
        hA2 hB2
        (fun l P' Q' hP' hQ' => by
          by_cases hkl : k = l
          · subst hkl
            have : alist.find F' k = none :=
              find_eq_none _ _ hnodup.1
            rw [this] at hP'
            exact absurd hP' (by simp)
          · exact hw l P' Q'
              (by simpa [alist.find, if_neg hkl] using hP')
              (by simpa [alist.find, if_neg hkl] using hQ'))
      have hskip : mergeData nA nB (F'.map fun p => (p.1, fitStats p.2))
            ((k, fitStats Q) :: G'.map fun p => (p.1, fitStats p.2))
          = mergeData nA nB (F'.map fun p => (p.1, fitStats p.2))
              (G'.map fun p => (p.1, fitStats p.2)) := by
        apply mergeData_skip
        rw [map_fst_statmap]
        exact hnodup.1
      have hmerge : mergeStats nA nB (fitStats P) (fitStats Q) = fitStats (P ++ Q) := by
        rw [← hPlen, ← hQlen]
        exact mergeStats_pooled P Q (hPlen ▸ hA2) (hQlen ▸ hB2) hwid
      simp [List.zipWith_cons_cons, mergeData, alist.find, hskip, hrec, hmerge]

/-- C1: for two feature maps over the same layers (equal key lists, unique
keys as in Python dicts), with `n_a ≥ 2` and `n_b ≥ 2` samples per layer and
matching per-layer neuron counts, fitting each separately and merging the
fitted distributions with the `__add__` formulas yields exactly the
distribution obtained by fitting the per-layer concatenation of the two
sample sets, with sample count `n_a + n_b` — for every layer and neuron, in
exact arithmetic. -/
theorem C1_merge_equals_pooled_fit
    (F G : List (String × Batch)) (nA nB : ℕ)
    (hA2 : 2 ≤ nA) (hB2 : 2 ≤ nB)
    (hkeys : F.map Prod.fst = G.map Prod.fst)
    (hnodup : (F.map Prod.fst).Nodup)
    (hla : ∀ p ∈ F, (p.2 : Batch).length = nA)
    (hlb : ∀ p ∈ G, (p.2 : Batch).length = nB)
    (hw : ∀ l P Q, alist.find F l = some P → alist.find G l = some Q →
      ncols ((Q : Batch).map List.flatten) = ncols ((P : Batch).map List.flatten)) :
    fitData F = .ok (F.map fun p => (p.1, fitStats p.2))
      ∧ fitData G = .ok (G.map fun p => (p.1, fitStats p.2))
      ∧ fitData (List.zipWith (fun p q => (p.1, p.2 ++ q.2)) F G)
          = .ok ((List.zipWith (fun p q => (p.1, p.2 ++ q.2)) F G).map
              fun p => (p.1, fitStats p.2))
      ∧ VDNAGauss.add ⟨F.map fun p => (p.1, fitStats p.2), nA⟩
            ⟨G.map fun p => (p.1, fitStats p.2), nB⟩
          = .ok ⟨(List.zipWith (fun p q => (p.1, p.2 ++ q.2)) F G).map
              (fun p => (p.1, fitStats p.2)), nA + nB⟩ := by
  refine ⟨fitData_of_one_lt F fun p hp => by rw [hla p hp]; omega,
    fitData_of_one_lt G fun p hp => by rw [hlb p hp]; omega,
    fitData_of_one_lt _ (forall_mem_zipWith _ _ F G fun p hp q hq => by
      simp only [List.length_append]
      rw [hla p hp, hlb q hq]
      omega),
    ?_⟩
  have hs : sameSchema ⟨F.map fun p => (p.1, fitStats p.2), nA⟩
      ⟨G.map fun p => (p.1, fitStats p.2), nB⟩ = true := by
    apply (sameSchema_iff_schemaSpec _ _ ?_ ?_).mpr
    · constructor
      · intro l
        show l ∈ (List.map _ F).map Prod.fst ↔ l ∈ (List.map _ G).map Prod.fst
        rw [map_fst_statmap, map_fst_statmap, hkeys]
      · intro l sa sb hsa hsb
        show sa.mu.length = sb.mu.length
        rw [show alist.find (List.map (fun p => (p.1, fitStats p.2)) F) l
            = (alist.find F l).map fitStats from find_map_stats F fitStats l] at hsa
        rw [show alist.find (List.map (fun p => (p.1, fitStats p.2)) G) l
            = (alist.find G l).map fitStats from find_map_stats G fitStats l] at hsb
        cases hPf : alist.find F l with
        | none => rw [hPf] at hsa; simp at hsa
        | some P =>
          cases hQf : alist.find G l with
          | none => rw [hQf] at hsb; simp at hsb
          | some Q =>
            rw [hPf] at hsa
            rw [hQf] at hsb
            simp only [Option.map_some', Option.some.injEq] at hsa hsb
            subst hsa
            subst hsb
            simp only [fitStats, List.length_map, List.length_range]
            exact (hw l P Q hPf hQf).symm
    · show ((List.map _ F).map Prod.fst).Nodup
      rw [map_fst_statmap]
      exact hnodup
    · show ((List.map _ G).map Prod.fst).Nodup
      rw [map_fst_statmap, ← hkeys]
      exact hnodup
  unfold VDNAGauss.add
  rw [if_pos hs]
  rw [show mergeData nA nB (F.map fun p => (p.1, fitStats p.2))
        (G.map fun p => (p.1, fitStats p.2))
      = .ok ((List.zipWith (fun p q => (p.1, p.2 ++ q.2)) F G).map
          fun p => (p.1, fitStats p.2))
    from C1_core nA nB F G hkeys hnodup hla hlb hA2 hB2 hw]

/-! ## Save/load facts -/

theorem mu_key_inj (a b : String) (h : "mu-" ++ a = "mu-" ++ b) : a = b := by
  have := congrArg String.data h
  simp only [String.data_append] at this
  exact String.ext (by simpa using this)

theorem var_key_inj (a b : String) (h : "var-" ++ a = "var-" ++ b) : a = b := by
  have := congrArg String.data h
  simp only [String.data_append] at this
  exact String.ext (by simpa using this)

theorem mu_key_ne_var_key (a b : String) : "mu-" ++ a ≠ "var-" ++ b := by
  intro h
  have := congrArg String.data h
  simp [String.data_append] at this

theorem find_dictSet_self {β : Type} (d : List (String × β)) (k : String) (v : β) :
    alist.find (dictSet d k v) k = some v := by
  induction d with
  | nil => simp [dictSet, alist.find]
  | cons p rest ih =>
    obtain ⟨k', v'⟩ := p
    by_cases hk : k' = k
    · subst hk
      simp [dictSet, alist.find]
    · simp [dictSet, alist.find, hk, ih]

theorem find_dictSet_ne {β : Type} (d : List (String × β)) (k k' : String) (v : β)
    (h : k' ≠ k) : alist.find (dictSet d k v) k' = alist.find d k' := by
  induction d with
  | nil =>
    have : ¬ k = k' := fun he => h he.symm
    simp [dictSet, alist.find, this]
  | cons p rest ih =>
    obtain ⟨k0, v0⟩ := p
    by_cases hk : k0 = k
    · subst hk
      simp only [dictSet, if_pos rfl]
      have : k0 ≠ k' := fun he => h he.symm
      simp [alist.find, this]
    · simp only [dictSet, if_neg hk]
      by_cases hk0 : k0 = k'
      · subst hk0
        simp [alist.find]
      · simp [alist.find, hk0, ih]

theorem saveGo_preserve (f : ℚ → ℚ) :
    ∀ (rest : List (String × LayerStats)) (acc : List (String × ArchiveVal))
      (key : String),
      (∀ l ∈ rest.map Prod.fst,
        key ≠ l ∧ key ≠ "mu-" ++ l ∧ key ≠ "var-" ++ l) →
      alist.find (saveGo f rest acc) key = alist.find acc key
  | [], acc, key, _ => rfl
  | (l, st) :: rest, acc, key, h => by
    have hl := h l (by simp)
    rw [saveGo, saveGo_preserve f rest _ key
      fun l' hl' => h l' (List.mem_cons_of_mem _ hl')]
    rw [find_dictSet_ne _ _ _ _ hl.2.2, find_dictSet_ne _ _ _ _ hl.2.1,
      find_dictSet_ne _ _ _ _ hl.1]

theorem save_find_mu (f : ℚ → ℚ) :
    ∀ (D : List (String × LayerStats)) (acc : List (String × ArchiveVal))
      (l : String) (st : LayerStats),
      alist.find D l = some st →
      (D.map Prod.fst).Nodup →
      (∀ p ∈ D.map Prod.fst, ∀ q ∈ D.map Prod.fst,
        p ≠ "mu-" ++ q ∧ p ≠ "var-" ++ q) →
      alist.find (saveGo f D acc) ("mu-" ++ l) = some (.arr (st.mu.map f))
  | [], _, l, st, hf, _, _ => by simp [alist.find] at hf
  | (l0, st0) :: rest, acc, l, st, hf, hnodup, hcoll => by
    simp only [List.map_cons, List.nodup_cons] at hnodup
    by_cases hl : l0 = l
    · subst hl
      have hst : st0 = st := by simpa [alist.find] using hf
      subst hst
      rw [saveGo, saveGo_preserve f rest _ _ ?_]
      · rw [find_dictSet_ne _ _ _ _ (mu_key_ne_var_key l0 l0),
          find_dictSet_self]
      · intro l' hl'
        have hlD : l0 ∈ ((l0, st0) :: rest).map Prod.fst := by simp
        have hl'D : l' ∈ ((l0, st0) :: rest).map Prod.fst := by simp [hl']
        refine ⟨fun he => (hcoll l' hl'D l0 hlD).1 he.symm, ?_, ?_⟩
        · intro he
          exact hnodup.1 (mu_key_inj _ _ he ▸ hl')
        · exact fun he => mu_key_ne_var_key l0 l' he
    · have hf' : alist.find rest l = some st := by
        simpa [alist.find, hl] using hf
      rw [saveGo]
      exact save_find_mu f rest _ l st hf' hnodup.2
        fun p hp q hq => hcoll p (by simp [hp]) q (by simp [hq])

theorem save_find_var (f : ℚ → ℚ) :
    ∀ (D : List (String × LayerStats)) (acc : List (String × ArchiveVal))
      (l : String) (st : LayerStats),
      alist.find D l = some st →
      (D.map Prod.fst).Nodup →
      (∀ p ∈ D.map Prod.fst, ∀ q ∈ D.map Prod.fst,
        p ≠ "mu-" ++ q ∧ p ≠ "var-" ++ q) →
      alist.find (saveGo f D acc) ("var-" ++ l) = some (.arr (st.var.map f))
  | [], _, l, st, hf, _, _ => by simp [alist.find] at hf
  | (l0, st0) :: rest, acc, l, st, hf, hnodup, hcoll => by
    simp only [List.map_cons, List.nodup_cons] at hnodup
    by_cases hl : l0 = l
    · subst hl
      have hst : st0 = st := by simpa [alist.find] using hf
      subst hst
      rw [saveGo, saveGo_preserve f rest _ _ ?_]
      · rw [find_dictSet_self]
      · intro l' hl'
        have hlD : l0 ∈ ((l0, st0) :: rest).map Prod.fst := by simp
        have hl'D : l' ∈ ((l0, st0) :: rest).map Prod.fst := by simp [hl']
        refine ⟨fun he => (hcoll l' hl'D l0 hlD).2 he.symm, ?_, ?_⟩
        · exact fun he => mu_key_ne_var_key l' l0 he.symm
        · intro he
          exact hnodup.1 (var_key_inj _ _ he ▸ hl')
    · have hf' : alist.find rest l = some st := by
        simpa [alist.find, hl] using hf
      rw [saveGo]
      exact save_find_var f rest _ l st hf' hnodup.2
        fun p hp q hq => hcoll p (by simp [hp]) q (by simp [hq])

theorem load_of_finds (archive : List (String × ArchiveVal)) :
    ∀ (E : List (String × LayerStats)),
      (∀ p ∈ E, npzGet archive ("mu-" ++ p.1) = .ok p.2.mu
        ∧ npzGet archive ("var-" ++ p.1) = .ok p.2.var) →
      _load_dist_data archive (E.map Prod.fst) = .ok E
  | [], _ => rfl
  | (l, st) :: E, h => by
    have hh := h (l, st) (List.mem_cons_self _ _)
    rw [List.map_cons, _load_dist_data, hh.1, hh.2,
      load_of_finds archive E fun p hp => h p (List.mem_cons_of_mem _ hp)]

/-- C8 counterexample: the fitted distribution with layers `"a"` and
`"mu-a"` (in that insertion order) does not survive a save/load round trip:
while saving, the junk entry `data["mu-a"] = {}` written for layer `"mu-a"`
overwrites the already-stored `mu` array of layer `"a"`, so loading layer
`"a"` hits a pickled object and fails instead of reproducing `mu`. -/
theorem C8_counterexample :
    fitData [("a", [[[0]], [[0]]]), ("mu-a", [[[0]], [[0]]])]
        = .ok [("a", ⟨[0], [0]⟩), ("mu-a", ⟨[0], [0]⟩)]
      ∧ _load_dist_data
          (_save_dist_data id [("a", ⟨[0], [0]⟩), ("mu-a", ⟨[0], [0]⟩)])
          ["a", "mu-a"]
        = .error .pickleLoadError := by
  constructor
  · simp [fitData, _get_gaussian_params, ncols, col, vmean, vvar,
      List.range_succ]
  · rfl

/-- C8 (amended): a save/load round trip with the same expected layers
reproduces every layer's `mu` and `var` exactly up to the per-entry 32-bit
cast `f`, provided no layer name collides with a composite archive key of
another layer, i.e. no layer is named `"mu-" ++ l` or `"var-" ++ l` for a
layer `l` of the same distribution (and layer names are unique, as Python
dict keys are).  `f` abstracts `astype(np.float32)`: the loaded vectors are
the originals with `f` applied entrywise, which for `f` = rounding to
float32 is exactly "bit-for-bit at 32-bit floating-point precision". -/
theorem C8_roundtrip_no_collision (f : ℚ → ℚ) (D : List (String × LayerStats))
    (hnodup : (D.map Prod.fst).Nodup)
    (hcoll : ∀ p ∈ D.map Prod.fst, ∀ q ∈ D.map Prod.fst,
      p ≠ "mu-" ++ q ∧ p ≠ "var-" ++ q) :
    _load_dist_data (_save_dist_data f D) (D.map Prod.fst)
      = .ok (D.map fun p =>
          (p.1, LayerStats.mk (p.2.mu.map f) (p.2.var.map f))) := by
  have hkeys : (D.map fun p =>
      (p.1, LayerStats.mk (p.2.mu.map f) (p.2.var.map f))).map Prod.fst
        = D.map Prod.fst :=
    map_fst_statmap D fun st => LayerStats.mk (st.mu.map f) (st.var.map f)
  rw [← hkeys]
  apply load_of_finds
  intro p hp
  obtain ⟨q, hq, hpq⟩ := List.mem_map.mp hp
  subst hpq
  have hfq : alist.find D q.1 = some q.2 := find_eq_of_nodup D hnodup q hq
  constructor
  · show npzGet (saveGo f D []) _ = _
    simp only [npzGet, save_find_mu f D [] q.1 q.2 hfq hnodup hcoll]
  · show npzGet (saveGo f D []) _ = _
    simp only [npzGet, save_find_var f D [] q.1 q.2 hfq hnodup hcoll]

/-! ## Witnesses: the claim theorems applied at concrete inputs -/

theorem C2_witness :
    ∃ st, alist.find vW.data "L" = some st
      ∧ st.mu.length = ncols (PW.map List.flatten)
      ∧ st.var.length = ncols (PW.map List.flatten)
      ∧ (∀ j, j < ncols (PW.map List.flatten) →
          st.mu[j]? = some ((col (PW.map List.flatten) j).sum / (PW.length : ℚ))
          ∧ st.var[j]? = some (((col (PW.map List.flatten) j).map
              (fun x => (x - (col (PW.map List.flatten) j).sum / (PW.length : ℚ)) ^ 2)).sum
            / ((PW.length : ℚ) - 1))) :=
  C2_fit_mean_and_unbiased_variance ⟨[], 0⟩ vW FW rfl "L" PW rfl (by decide)

theorem C3_witness :
    ∃ st, _get_gaussian_params [sW] = .ok (st, true)
      ∧ st.var = List.replicate st.mu.length 0
      ∧ st.mu.length = sW.flatten.length
      ∧ ∀ j, j < sW.flatten.length → st.mu[j]? = some (sW.flatten.getD j 0) :=
  C3_singleton_sample_zero_variance [sW] sW rfl

theorem C4_witness :
    (VDNAGauss.fit_distribution_mut ⟨[], 0⟩ (FW ++ ("b", ([] : Batch)) :: [])).2
        = some .shapeError
      ∧ ∀ p ∈ FW, ∃ st w, _get_gaussian_params p.2 = .ok (st, w)
          ∧ alist.find (VDNAGauss.fit_distribution_mut ⟨[], 0⟩
              (FW ++ ("b", ([] : Batch)) :: [])).1.data p.1 = some st :=
  C4_raises_keeping_earlier_layers ⟨[], 0⟩ FW [] "b" (by decide) (by decide)

theorem C5_witness :
    ((∃ v, aW.add aW = .ok v) ↔ schemaSpec aW aW)
      ∧ (¬ schemaSpec aW aW → aW.add aW = .error .schemaMismatchError) :=
  C5_schema_mismatch aW aW (by decide) (by decide)

theorem C6_witness : ∃ v, aW.add bW = .ok v :=
  C6_no_degenerate_guard aW bW rfl rfl

theorem C7_witness :
    (abW.num_images = abW.num_images
      ∧ ∀ l, alist.find abW.data l = alist.find abW.data l)
    ∧ (abcW.num_images = abcW.num_images
      ∧ ∀ l, alist.find abcW.data l = alist.find abcW.data l) :=
  C7_merge_comm_assoc aW aW aW abW abW abcW abW abcW (by decide) (by decide)
    (by decide)
    (by simp [VDNAGauss.add, sameSchema, alist.find, mergeData, mergeStats,
      mergeMu, mergeVar, aW, abW, stW])
    (by simp [VDNAGauss.add, sameSchema, alist.find, mergeData, mergeStats,
      mergeMu, mergeVar, aW, abW, stW])
    (by simp [VDNAGauss.add, sameSchema, alist.find, mergeData, mergeStats,
      mergeMu, mergeVar, aW, abW, abcW, stW])
    (by simp [VDNAGauss.add, sameSchema, alist.find, mergeData, mergeStats,
      mergeMu, mergeVar, aW, abW, stW])
    (by simp [VDNAGauss.add, sameSchema, alist.find, mergeData, mergeStats,
      mergeMu, mergeVar, aW, abW, abcW, stW])

theorem C8_witness :
    _load_dist_data (_save_dist_data id [("L", stW)])
        ([("L", stW)].map Prod.fst)
      = .ok ([("L", stW)].map fun p =>
          (p.1, LayerStats.mk (p.2.mu.map id) (p.2.var.map id))) :=
  C8_roundtrip_no_collision id [("L", stW)] (by decide) (by decide)

theorem C9_witness :
    vW.get_all_neurons_dists
        = ((vW.data.map fun p => p.2.mu).flatten,
           (vW.data.map fun p => p.2.var).flatten)
      ∧ vW.data.map Prod.fst = FW.map Prod.fst
      ∧ [("L", stW)].map Prod.fst = ["L"] :=
  C9_query_insertion_order ⟨[], 0⟩ vW FW rfl archW ["L"] [("L", stW)] rfl

theorem C10_witness :
    dW.get_neuron_dist "L" (-1)
      = some ((⟨[1, 2], [3, 4]⟩ : LayerStats).mu.getD ((2 : ℤ) + (-1)).toNat 0,
          (⟨[1, 2], [3, 4]⟩ : LayerStats).var.getD ((2 : ℤ) + (-1)).toNat 0) :=
  C10_negative_indexing dW "L" ⟨[1, 2], [3, 4]⟩ rfl 2 rfl rfl (-1) (by decide)
    (by decide)

theorem C1_witness :
    fitData FW = .ok (FW.map fun p => (p.1, fitStats p.2))
      ∧ fitData FW = .ok (FW.map fun p => (p.1, fitStats p.2))
      ∧ fitData (List.zipWith (fun p q => (p.1, p.2 ++ q.2)) FW FW)
          = .ok ((List.zipWith (fun p q => (p.1, p.2 ++ q.2)) FW FW).map
              fun p => (p.1, fitStats p.2))
      ∧ VDNAGauss.add ⟨FW.map fun p => (p.1, fitStats p.2), 2⟩
            ⟨FW.map fun p => (p.1, fitStats p.2), 2⟩
          = .ok ⟨(List.zipWith (fun p q => (p.1, p.2 ++ q.2)) FW FW).map
              (fun p => (p.1, fitStats p.2)), 2 + 2⟩ :=
  C1_merge_equals_pooled_fit FW FW 2 2 (by decide) (by decide) rfl (by decide)
    (by decide) (by decide)
    (by
      intro l P Q hP hQ
      by_cases h : "L" = l
      · have hP' : PW = P := by simpa [FW, alist.find, h] using hP
        have hQ' : PW = Q := by simpa [FW, alist.find, h] using hQ
        rw [← hP', ← hQ']
      · rw [show alist.find FW l = none by simp [FW, alist.find, h]] at hP
        exact absurd hP (by simp))
